import Mathlib

/-!
Verification development for the smalltsdb ingest-and-rollup engine.

The definitions below are a shallow embedding of the program:

* `intervals` embeds `smalltsdb.tsdb.intervals` (the interval algebra);
* `QuantileAggregate` with `step`/`finalize` embeds the sqlite aggregate
  class of the same name, and `percentile` embeds the linear-interpolation
  percentile (`numpy.percentile` with the default interpolation);
* `Sample`, `AggRow`, `Store`, `syncStore` embed the `incoming` table, the
  rollup tables and `TablesTSDB._sync`, with SQLite semantics made explicit:
  `between` is inclusive on both ends, and `cast(x as integer)` and integer
  division both truncate toward zero (`sqliteCastInt`, `sqliteDiv`);
* `parse_line` embeds `smalltsdb.daemon.parse_line` on top of a model of
  Python `str.split()` and `float()`;
* `processModel` embeds the body of `run_daemon.process`;
* `get_metric` embeds `BaseTSDB.get_metric` (whose date-time branch
  references `epoch_from_datetime`, a name `tsdb.py` never imports) and
  `epoch_from_datetime` embeds `smalltsdb.utils.epoch_from_datetime`.

Timestamps and values are modelled as exact rationals.
-/

/-- SQLite `cast(x as integer)`: truncation toward zero. -/
def sqliteCastInt (x : ℚ) : ℤ := if 0 ≤ x then ⌊x⌋ else ⌈x⌉

/-- SQLite integer division: truncation toward zero (the divisors in use
are the positive period lengths). -/
def sqliteDiv (a b : ℤ) : ℤ := if 0 ≤ a then a / b else -(-a / b)

/-- SQLite bucket expression `cast(timestamp as integer) / P * P`. -/
def bucketTs (P : ℕ) (ts : ℚ) : ℚ := ((sqliteDiv (sqliteCastInt ts) P) * P : ℤ)

/-- Embedding of `smalltsdb.tsdb.intervals`.  Python `//` is floor
division; the result is `(final interval, partial-interval)`. -/
def intervals (period tail now : ℚ) (last_final : Option ℚ) : (ℚ × ℚ) × (ℚ × ℚ) :=
  let lf := last_final.getD (-period)
  let final_start := lf + period
  let final_end := (⌊(now - tail) / period⌋ : ℚ) * period
  let part_end := ((⌊now / period⌋ : ℚ) + 1) * period
  ((final_start, final_end), (final_end, part_end))

/-- One row of the `incoming` table: `(path, timestamp, value)`. -/
structure Sample where
  path : String
  timestamp : ℚ
  value : ℚ
deriving DecidableEq

/-- One row of a rollup table
`(path, timestamp, n, min, max, avg, sum, p50, p90, p99)`. -/
structure AggRow where
  path : String
  timestamp : ℚ
  n : ℚ
  min : ℚ
  max : ℚ
  avg : ℚ
  sum : ℚ
  p50 : ℚ
  p90 : ℚ
  p99 : ℚ
deriving DecidableEq

/-- Insertion step for sorting rationals ascending. -/
def insertRat (v : ℚ) : List ℚ → List ℚ
  | [] => [v]
  | x :: xs => if v ≤ x then v :: x :: xs else x :: insertRat v xs

/-- Insertion sort for rationals (the in-memory sort behind the
percentile computation). -/
def sortRat : List ℚ → List ℚ
  | [] => []
  | x :: xs => insertRat x (sortRat xs)

/-- Linear-interpolation percentile (`numpy.percentile` with the default
interpolation): for sorted data `a[0..n-1]` and percentage `p`, the value at
fractional rank `p/100 * (n-1)`. -/
def percentile (values : List ℚ) (p : ℚ) : ℚ :=
  let sorted := sortRat values
  let n := values.length
  let pos := p / 100 * ((n : ℚ) - 1)
  let i := ⌊pos⌋.toNat
  let g := pos - (⌊pos⌋ : ℚ)
  let lo := sorted.getD (min i (n - 1)) 0
  let hi := sorted.getD (min (i + 1) (n - 1)) 0
  lo + g * (hi - lo)

/-- `numpy.percentile` as called by the aggregate: numpy validates the
percentage and raises `ValueError` outside `[0, 100]` (modelled as `none`);
in range it returns the linear-interpolation percentile. -/
def numpyPercentile (values : List ℚ) (p : ℚ) : Option ℚ :=
  if 0 ≤ p ∧ p ≤ 100 then some (percentile values p) else none

/-- Embedding of the `QuantileAggregate` sqlite aggregate: a buffer of
values and the (constant per group) quantile argument. -/
structure QuantileAggregate where
  values : List ℚ
  q : Option ℚ
deriving DecidableEq

/-- `QuantileAggregate.__init__`. -/
def QuantileAggregate.init : QuantileAggregate := { values := [], q := none }

/-- `QuantileAggregate.step`; the `assert self.q == q, "q changed"` failure
is modelled as `none`. -/
def QuantileAggregate.step (s : QuantileAggregate) (value q : ℚ) : Option QuantileAggregate :=
  match s.q with
  | none => some { values := s.values ++ [value], q := some q }
  | some q0 =>
    if q0 = q then some { values := s.values ++ [value], q := some q0 } else none

/-- `QuantileAggregate.finalize`; the `assert self.q is not None, "no q"`
failure is modelled as `none`, and `numpy.percentile`'s range error for
`q * 100` outside `[0, 100]` through `numpyPercentile`. -/
def QuantileAggregate.finalize (s : QuantileAggregate) : Option ℚ :=
  match s.q with
  | none => none
  | some q => numpyPercentile s.values (q * 100)

/-- Run `step` over a whole group of values with a constant `q`. -/
def QuantileAggregate.stepMany (s : QuantileAggregate) (q : ℚ) (vs : List ℚ) :
    Option QuantileAggregate :=
  vs.foldl (fun acc v => acc.bind (fun st => st.step v q)) (some s)

/-- The period ladder `PERIODS` (ordered as in the source). -/
def PERIODS : List (String × ℕ) :=
  [("onesecond", 1), ("tensecond", 10), ("oneminute", 60),
   ("fiveminute", 300), ("onehour", 3600), ("oneday", 86400)]

/-- The stat set `STATS`. -/
def STATS : List String := ["n", "min", "max", "avg", "sum", "p50", "p90", "p99"]

/-- `TablesTSDB._tail` (seconds). -/
def TAIL : ℚ := 60

/-- `max(PERIODS.values())`. -/
def maxPeriodSeconds : ℚ := (((PERIODS.map Prod.snd).foldl Nat.max 0 : ℕ) : ℚ)

/-- SQL `min(value)` over a group (groups are nonempty in use). -/
def listMin : List ℚ → ℚ
  | [] => 0
  | x :: xs => xs.foldl min x

/-- SQL `max(value)` over a group. -/
def listMax : List ℚ → ℚ
  | [] => 0
  | x :: xs => xs.foldl max x

/-- One row produced by the rollup `insert or replace ... select` for a
given `(path, bucket)` group: the eight statistics of the group's values.
The quantile calls use the constant percentages 50, 90, 99, inside numpy's
accepted range, so `numpyPercentile` returns exactly `percentile` there. -/
def aggRow (path : String) (bucket : ℚ) (vals : List ℚ) : AggRow :=
  { path := path, timestamp := bucket, n := (vals.length : ℚ),
    min := listMin vals, max := listMax vals,
    avg := vals.sum / (vals.length : ℚ), sum := vals.sum,
    p50 := percentile vals 50, p90 := percentile vals 90, p99 := percentile vals 99 }

/-- The sync query's `where` clause:
`path = :path and timestamp between :start and :end`.
SQL `between` is inclusive on both ends. -/
def selectIncoming (inc : List Sample) (p : String) (a b : ℚ) : List Sample :=
  inc.filter (fun r => r.path = p ∧ a ≤ r.timestamp ∧ r.timestamp ≤ b)

/-- The distinct bucket timestamps (`group by path, agg_ts`) of a list of
selected incoming rows. -/
def groupBuckets (P : ℕ) (rows : List Sample) : List ℚ :=
  (rows.map (fun r => bucketTs P r.timestamp)).dedup

/-- The rows produced by the sync query for one path and interval: one
aggregate row per bucket of the selected incoming rows. -/
def syncRows (P : ℕ) (inc : List Sample) (p : String) (a b : ℚ) : List AggRow :=
  let sel := selectIncoming inc p a b
  (groupBuckets P sel).map
    (fun bkt =>
      aggRow p bkt ((sel.filter (fun r => bucketTs P r.timestamp = bkt)).map Sample.value))

/-- `insert or replace` of one row into a table keyed on `(path, timestamp)`. -/
def upsertRow (t : List AggRow) (w : AggRow) : List AggRow :=
  (t.filter (fun r => ¬(r.path = w.path ∧ r.timestamp = w.timestamp))) ++ [w]

/-- `insert or replace` of a list of rows. -/
def upsertRows (t : List AggRow) (ws : List AggRow) : List AggRow :=
  ws.foldl upsertRow t

/-- `select distinct path from incoming` (first-occurrence order). -/
def distinctPaths (inc : List Sample) : List String :=
  (inc.map Sample.path).dedup

/-- The rows of a rollup table for a given path. -/
def pathRows (t : List AggRow) (p : String) : List AggRow :=
  t.filter (fun r => r.path = p)

/-- The rollup timestamps recorded for a given path. -/
def tsList (t : List AggRow) (p : String) : List ℚ :=
  (pathRows t p).map AggRow.timestamp

/-- `max({name}.timestamp)` for one path of the `last_finals` left-join
query; `none` models SQL `NULL` (no rollup row yet). -/
def lastFinal (t : List AggRow) (p : String) : Option ℚ :=
  match tsList t p with
  | [] => none
  | x :: xs => some (xs.foldl max x)

/-- The rows the sync pass writes for one path: the sync query evaluated on
the final interval computed from the *materialized* `last_finals` (read from
the table state `t` as it was before any write of this pass). -/
def writeRowsFor (now : ℚ) (P : ℕ) (inc : List Sample) (t : List AggRow) (q : String) :
    List AggRow :=
  let fi := (intervals (P : ℚ) TAIL now (lastFinal t q)).1
  syncRows P inc q fi.1 fi.2

/-- One iteration of the per-path loop of `TablesTSDB._sync`. -/
def pathPass (now : ℚ) (P : ℕ) (inc : List Sample) (t : List AggRow)
    (tbl : List AggRow) (q : String) : List AggRow :=
  upsertRows tbl (writeRowsFor now P inc t q)

/-- One period's pass of `TablesTSDB._sync`: materialize the last finals,
then upsert the sync-query rows path by path. -/
def syncPeriod (now : ℚ) (P : ℕ) (inc : List Sample) (t : List AggRow) : List AggRow :=
  (distinctPaths inc).foldl (pathPass now P inc t) t

/-- The persistent state of a `TablesTSDB`: the `incoming` table and one
rollup table per period name. -/
@[ext]
structure Store where
  incoming : List Sample
  rollups : String → List AggRow

/-- The prune threshold `now - tail - max(PERIODS.values())`. -/
def deleteEndFor (now : ℚ) : ℚ := now - TAIL - maxPeriodSeconds

/-- One step of the per-period loop of `TablesTSDB._sync`, updating the
rollup table named by the period. -/
def periodStep (now : ℚ) (inc : List Sample) (f : String → List AggRow)
    (nP : String × ℕ) : String → List AggRow :=
  Function.update f nP.1 (syncPeriod now nP.2 inc (f nP.1))

/-- Embedding of `TablesTSDB._sync`: per period (in ladder order) run the
rollup pass, then delete incoming rows with `timestamp < delete_end`. -/
def syncStore (now : ℚ) (st : Store) : Store :=
  { incoming := st.incoming.filter (fun r => ¬(r.timestamp < deleteEndFor now)),
    rollups := PERIODS.foldl (periodStep now st.incoming) st.rollups }

/-- A Python `datetime.datetime`, represented by its calendar offset from
`datetime(1970, 1, 1)`: subtraction of the two yields
`timedelta(days, seconds, microseconds)`. -/
structure PyDatetime where
  days : ℤ
  seconds : ℕ
  microseconds : ℕ

/-- `smalltsdb.utils.epoch_from_datetime`:
`(dt - datetime(1970, 1, 1)) / timedelta(seconds=1)`.  Defined in
`utils.py`; `get_metric` in `tsdb.py` references this name without
importing it. -/
def epoch_from_datetime (d : PyDatetime) : ℚ :=
  (d.days : ℚ) * 86400 + (d.seconds : ℚ) + (d.microseconds : ℚ) / 1000000

/-- An interval endpoint passed to `get_metric`: a number or a datetime. -/
inductive TimeArg where
  | num (x : ℚ)
  | dt (d : PyDatetime)

/-- Column selection `select timestamp, {stat}`. -/
def statValue (stat : String) (r : AggRow) : ℚ :=
  match stat with
  | "n" => r.n
  | "min" => r.min
  | "max" => r.max
  | "avg" => r.avg
  | "sum" => r.sum
  | "p50" => r.p50
  | "p90" => r.p90
  | "p99" => r.p99
  | _ => 0

/-- Insertion step for ordering rollup rows by timestamp. -/
def insertByTs (r : AggRow) : List AggRow → List AggRow
  | [] => [r]
  | x :: xs => if r.timestamp ≤ x.timestamp then r :: x :: xs else x :: insertByTs r xs

/-- `order by timestamp` over selected rollup rows. -/
def sortByTs : List AggRow → List AggRow
  | [] => []
  | x :: xs => insertByTs x (sortByTs xs)

/-- Embedding of `BaseTSDB.get_metric`: assert the period and stat are
known, then, for numeric endpoints, run
`select timestamp, {stat} from {period} where path = :path and timestamp
between :start and :end order by timestamp`.  A date-time endpoint takes
the `isinstance` branch that calls `epoch_from_datetime` — a name `tsdb.py`
never imports — so the call raises `NameError`, modelled as `none`. -/
def get_metric (st : Store) (path period stat : String) (interval : TimeArg × TimeArg) :
    Option (List (ℚ × ℚ)) :=
  if (PERIODS.map Prod.fst).contains period ∧ STATS.contains stat then
    match interval.1, interval.2 with
    | TimeArg.num s, TimeArg.num e =>
      some ((sortByTs ((st.rollups period).filter
          (fun r => r.path = path ∧ s ≤ r.timestamp ∧ r.timestamp ≤ e))).map
        (fun r => (r.timestamp, statValue stat r)))
    | _, _ => none
  else none

/-- Lowercasing of the letters relevant to Python's special float strings
(`inf`, `infinity`, `nan`, case-insensitive). -/
def lowerChar (c : Char) : Char :=
  if c = 'I' then 'i'
  else if c = 'N' then 'n'
  else if c = 'F' then 'f'
  else if c = 'A' then 'a'
  else if c = 'T' then 't'
  else if c = 'Y' then 'y'
  else c

/-- Consume a run `digit (underscore digit | digit)*` (Python numeric
literals accept single underscores only *between* digits, so an underscore
is consumed only after at least one digit and only when a digit follows),
returning the accumulated value, the number of digits consumed, and the
rest. -/
def digitRunGo (acc n : ℕ) : List Char → ℕ × ℕ × List Char
  | [] => (acc, n, [])
  | c :: rest =>
    if c.isDigit then digitRunGo (acc * 10 + (c.toNat - 48)) (n + 1) rest
    else if c = '_' ∧ n ≠ 0 then
      match rest with
      | c2 :: rest2 =>
        if c2.isDigit then digitRunGo (acc * 10 + (c2.toNat - 48)) (n + 1) rest2
        else (acc, n, c :: rest)
      | [] => (acc, n, c :: rest)
    else (acc, n, c :: rest)

/-- Parse the decimal part of a Python float literal
(`digits [. digits] [(e|E) [sign] digits]`, at least one digit before the
exponent), returning its exact rational value. -/
def parseDecimal (cs : List Char) : Option ℚ :=
  let ip := digitRunGo 0 0 cs
  let fp :=
    match ip.2.2 with
    | '.' :: rest => digitRunGo 0 0 rest
    | other => (0, 0, other)
  if ip.2.1 + fp.2.1 = 0 then none
  else
    let base : ℚ := (ip.1 : ℚ) + (fp.1 : ℚ) / ((10 : ℚ) ^ fp.2.1)
    match fp.2.2 with
    | [] => some base
    | e :: rest =>
      if e = 'e' ∨ e = 'E' then
        let signedRest :=
          match rest with
          | '+' :: r => (false, r)
          | '-' :: r => (true, r)
          | r => (false, r)
        let ex := digitRunGo 0 0 signedRest.2
        if ex.2.1 = 0 then none
        else
          match ex.2.2 with
          | [] => some (if signedRest.1 then base / (10 : ℚ) ^ ex.1 else base * (10 : ℚ) ^ ex.1)
          | _ => none
      else none

/-- The value space of Python `float`: finite values (idealized as exact
rationals), the two infinities, and NaN. -/
inductive PyFloat where
  | finite (x : ℚ)
  | inf
  | neginf
  | nan
deriving DecidableEq

/-- Python `float(string)` on a whitespace-free token: optional sign, then
`inf`/`infinity`/`nan` (case-insensitive) or a decimal literal; anything
else raises `ValueError`, modelled as `none`. -/
def pyFloatOfChars (cs : List Char) : Option PyFloat :=
  let signed :=
    match cs with
    | '+' :: r => (false, r)
    | '-' :: r => (true, r)
    | r => (false, r)
  let low := signed.2.map lowerChar
  if low = ['i', 'n', 'f'] ∨ low = ['i', 'n', 'f', 'i', 'n', 'i', 't', 'y'] then
    some (if signed.1 then PyFloat.neginf else PyFloat.inf)
  else if low = ['n', 'a', 'n'] then some PyFloat.nan
  else
    (parseDecimal signed.2).map (fun x => PyFloat.finite (if signed.1 then -x else x))

/-- Python `float(string)`. -/
def pyFloatOfString (s : String) : Option PyFloat := pyFloatOfChars s.data

/-- Accumulating worker for `str.split()`: split on whitespace runs,
dropping empty tokens. -/
def splitWsAux (cur : List Char) : List Char → List (List Char)
  | [] => if cur = [] then [] else [cur.reverse]
  | c :: rest =>
    if c.isWhitespace then
      if cur = [] then splitWsAux [] rest else cur.reverse :: splitWsAux [] rest
    else splitWsAux (c :: cur) rest

/-- Python `str.split()` with no arguments. -/
def pySplit (s : String) : List String :=
  (splitWsAux [] s.data).map (fun l => { data := l })

/-- Embedding of `smalltsdb.daemon.parse_line`: split the line, require
exactly three tokens `path value timestamp`, convert the numeric tokens
with `float()`, and return `(path, timestamp, value)`; `ValueError` is
modelled as `none`. -/
def parse_line (line : String) : Option (String × PyFloat × PyFloat) :=
  match pySplit line with
  | [path, value, timestamp] =>
    (pyFloatOfString value).bind
      (fun v => (pyFloatOfString timestamp).map (fun t => (path, t, v)))
  | _ => none

/-- The `"{prefix}.insert"` self-metric sample appended to a batch before
inserting, when a self-metric prefix is configured: its value is the count
of buffered samples whose path does not start with `"{prefix}."`. -/
def selfOkList (pfx : Option String) (now : ℚ) (buf : List Sample) : List Sample :=
  match pfx with
  | some p =>
    [{ path := p ++ ".insert", timestamp := now,
       value := ((buf.filter (fun t => ¬((p ++ ".").data.isPrefixOf t.path.data))).length : ℚ) }]
  | none => []

/-- The `"{prefix}.error"` self-metric sample kept in the buffer after a
failed insert, when a self-metric prefix is configured. -/
def selfErrorList (pfx : Option String) (now : ℚ) : List Sample :=
  match pfx with
  | some p => [{ path := p ++ ".error", timestamp := now, value := 1 }]
  | none => []

/-- Embedding of the body of `run_daemon.process`: on a non-empty buffer
attempt one `Store.insert` of the buffer plus the optional insert
self-metric; on success clear the buffer, on failure keep it and append the
optional error self-metric.  Returns the list of insert calls made and the
new buffer; `ok` is whether the insert call succeeds. -/
def processModel (pfx : Option String) (now : ℚ) (ok : Bool) (buf : List Sample) :
    List (List Sample) × List Sample :=
  if buf = [] then ([], buf)
  else if ok then ([buf ++ selfOkList pfx now buf], [])
  else ([buf ++ selfOkList pfx now buf], buf ++ selfErrorList pfx now)

/-- An item of the daemon's work queue: a parsed sample batch, the timer's
tick (`TIME`), or the shutdown sentinel (`DONE`). -/
inductive QueueItem where
  | batch (samples : List Sample)
  | tick
  | done

/-- One iteration of the daemon's consumer loop: batches extend the buffer;
tick and shutdown run `process` (shutdown then exits the loop).  Returns
the insert calls made, the new buffer, and whether the loop exits. -/
def consumerStep (pfx : Option String) (now : ℚ) (ok : Bool) (buf : List Sample) :
    QueueItem → List (List Sample) × List Sample × Bool
  | .batch l => ([], buf ++ l, false)
  | .tick => ((processModel pfx now ok buf).1, (processModel pfx now ok buf).2, false)
  | .done => ((processModel pfx now ok buf).1, (processModel pfx now ok buf).2, true)


/-- Truncation bound: `x < trunc x + 1`. -/
theorem sqliteCastInt_lt (x : ℚ) : x < (sqliteCastInt x : ℚ) + 1 := by
  rw [sqliteCastInt]
  rcases le_or_lt 0 x with h | h
  · simp only [if_pos h]
    exact Int.lt_floor_add_one x
  · simp only [if_neg (not_le.mpr h)]
    have := Int.le_ceil x
    linarith

theorem sqliteCastInt_nonneg {x : ℚ} (h : 0 ≤ x) : 0 ≤ sqliteCastInt x := by
  rw [sqliteCastInt, if_pos h]
  exact Int.floor_nonneg.mpr h

/-- Truncating-division bound: for positive `b`, `a < sqliteDiv a b * b + b`. -/
theorem sqliteDiv_mul_bound (a b : ℤ) (hb : 0 < b) : a < sqliteDiv a b * b + b := by
  rw [sqliteDiv]
  rcases le_or_lt 0 a with ha | ha
  · rw [if_pos ha]
    have h1 := Int.ediv_add_emod a b
    have h2 := Int.emod_lt_of_pos a hb
    linarith
  · rw [if_neg (not_le.mpr ha)]
    have h1 := Int.ediv_add_emod (-a) b
    have h2 := Int.emod_nonneg (-a) (by omega : b ≠ 0)
    linarith

theorem sqliteDiv_mul_nonneg {a b : ℤ} (hb : 0 < b) (ha : 0 ≤ a) : 0 ≤ sqliteDiv a b * b := by
  rw [sqliteDiv, if_pos ha]
  have := Int.ediv_nonneg ha hb.le
  positivity

/-- Every timestamp lies below its bucket plus one period. -/
theorem lt_bucketTs_add (P : ℕ) (hP : 0 < P) (ts : ℚ) : ts < bucketTs P ts + P := by
  have h1 := sqliteCastInt_lt ts
  have h2 := sqliteDiv_mul_bound (sqliteCastInt ts) P (by exact_mod_cast hP)
  have h3 : sqliteCastInt ts + 1 ≤ sqliteDiv (sqliteCastInt ts) (P : ℤ) * (P : ℤ) + (P : ℤ) := by
    omega
  have h4 : ((sqliteCastInt ts : ℚ)) + 1 ≤
      (((sqliteDiv (sqliteCastInt ts) (P : ℤ) * (P : ℤ) + (P : ℤ)) : ℤ) : ℚ) := by
    exact_mod_cast h3
  rw [bucketTs]
  push_cast at h4 ⊢
  linarith

/-- Buckets of nonnegative timestamps are nonnegative. -/
theorem bucketTs_nonneg (P : ℕ) (hP : 0 < P) {ts : ℚ} (h : 0 ≤ ts) : 0 ≤ bucketTs P ts := by
  have := sqliteDiv_mul_nonneg (a := sqliteCastInt ts) (b := P)
    (by exact_mod_cast hP) (sqliteCastInt_nonneg h)
  rw [bucketTs]
  exact_mod_cast this

/-- C1: for every positive period `P`, tail `T`, clock `now` and optional
`last_final`, `intervals` returns
`((last_final' + P, ⌊(now − T)/P⌋·P), (⌊(now − T)/P⌋·P, (⌊now/P⌋ + 1)·P))`
with `last_final' = −P` when `last_final` is none, and the six rows of the
spec's interval-algebra table hold exactly. -/
theorem c1_intervals_formula :
    (∀ (P T now : ℚ) (lf : Option ℚ), 0 < P →
        intervals P T now lf =
          ((lf.getD (-P) + P, (⌊(now - T) / P⌋ : ℚ) * P),
           ((⌊(now - T) / P⌋ : ℚ) * P, ((⌊now / P⌋ : ℚ) + 1) * P))) ∧
    intervals 10 30 102 (some 30) = ((40, 70), (70, 110)) ∧
    intervals 10 30 102 (some 50) = ((60, 70), (70, 110)) ∧
    intervals 10 30 102 (some 60) = ((70, 70), (70, 110)) ∧
    intervals 10 30 110 (some 60) = ((70, 80), (80, 120)) ∧
    intervals 60 30 102 (some 0) = ((60, 60), (60, 120)) ∧
    intervals 60 30 150 (some 0) = ((60, 120), (120, 180)) := by
  refine ⟨fun P T now lf _ => rfl, ?_, ?_, ?_, ?_, ?_, ?_⟩ <;>
    norm_num [intervals, Option.getD]

/-- Witness for `c1_intervals_formula` at `P = 10`, `T = 30`, `now = 102`,
`last_final = some 30`. -/
theorem c1_intervals_formula_witness :
    (0 : ℚ) < 10 ∧
      intervals 10 30 102 (some 30) =
        (((some (30 : ℚ)).getD (-10) + 10, (⌊((102 : ℚ) - 30) / 10⌋ : ℚ) * 10),
         ((⌊((102 : ℚ) - 30) / 10⌋ : ℚ) * 10, ((⌊(102 : ℚ) / 10⌋ : ℚ) + 1) * 10)) :=
  ⟨by norm_num, c1_intervals_formula.1 10 30 102 (some 30) (by norm_num)⟩

/-- C9: for every period `P ≥ 1`, tail `T ≥ 0`, clock `now` and any
`last_final`, the partial interval returned by `intervals` contains `now`:
`partial_start ≤ now < partial_end`. -/
theorem c9_partial_interval_contains_now (P T now : ℚ) (lf : Option ℚ)
    (hP : 1 ≤ P) (hT : 0 ≤ T) :
    (intervals P T now lf).2.1 ≤ now ∧ now < (intervals P T now lf).2.2 := by
  have hP0 : (0 : ℚ) < P := lt_of_lt_of_le one_pos hP
  refine ⟨?_, ?_⟩
  · show (⌊(now - T) / P⌋ : ℚ) * P ≤ now
    have h1 : (⌊(now - T) / P⌋ : ℚ) ≤ (now - T) / P := Int.floor_le _
    have h2 : (⌊(now - T) / P⌋ : ℚ) * P ≤ ((now - T) / P) * P :=
      mul_le_mul_of_nonneg_right h1 hP0.le
    rw [div_mul_cancel₀ _ (ne_of_gt hP0)] at h2
    linarith
  · show now < ((⌊now / P⌋ : ℚ) + 1) * P
    have h1 : now / P < (⌊now / P⌋ : ℚ) + 1 := Int.lt_floor_add_one _
    have h2 : (now / P) * P < ((⌊now / P⌋ : ℚ) + 1) * P := mul_lt_mul_of_pos_right h1 hP0
    rwa [div_mul_cancel₀ _ (ne_of_gt hP0)] at h2

/-- Witness for `c9_partial_interval_contains_now` at
`intervals 10 30 102 none`. -/
theorem c9_partial_interval_contains_now_witness :
    (1 : ℚ) ≤ 10 ∧ (0 : ℚ) ≤ 30 ∧
      ((intervals 10 30 102 none).2.1 ≤ 102 ∧ (102 : ℚ) < (intervals 10 30 102 none).2.2) :=
  ⟨by norm_num, by norm_num,
   c9_partial_interval_contains_now 10 30 102 none (by norm_num) (by norm_num)⟩

/-- When the line splits into exactly three tokens, `parse_line` converts
the second and third with `float()` and returns `(path, timestamp, value)`. -/
theorem parse_line_of_three (line p v t : String) (hs : pySplit line = [p, v, t]) :
    parse_line line =
      (pyFloatOfString v).bind (fun vf => (pyFloatOfString t).map (fun tf => (p, tf, vf))) := by
  unfold parse_line
  rw [hs]

/-- When the line does not split into exactly three tokens, `parse_line`
fails. -/
theorem parse_line_of_other (line : String)
    (h : ∀ p v t : String, pySplit line ≠ [p, v, t]) : parse_line line = none := by
  unfold parse_line
  split
  · next p v t heq => exact absurd heq (h p v t)
  · rfl

/-- C5 (amended): `parse_line` succeeds exactly when the line splits on
whitespace into three tokens whose second and third parse as Python floats
(including the non-finite `inf`/`nan` forms), returning
`(path, timestamp, value)`; it fails whenever the token count is not 3
(so for every empty line) or a numeric token does not parse. -/
theorem c5_parse_line_amended (line : String) :
    (∀ (p v t : String) (vf tf : PyFloat), pySplit line = [p, v, t] →
        pyFloatOfString v = some vf → pyFloatOfString t = some tf →
        parse_line line = some (p, tf, vf)) ∧
    (∀ p v t : String, pySplit line = [p, v, t] →
        pyFloatOfString v = none ∨ pyFloatOfString t = none → parse_line line = none) ∧
    ((pySplit line).length ≠ 3 → parse_line line = none) ∧
    (line = "" → parse_line line = none) := by
  refine ⟨?_, ?_, ?_, ?_⟩
  · intro p v t vf tf hs hv ht
    rw [parse_line_of_three line p v t hs, hv, ht]
    rfl
  · intro p v t hs hd
    rw [parse_line_of_three line p v t hs]
    rcases hd with h | h
    · rw [h]
      rfl
    · rw [h]
      cases pyFloatOfString v <;> rfl
  · intro h
    refine parse_line_of_other line (fun p v t hc => h ?_)
    rw [hc]
    rfl
  · intro h
    subst h
    refine parse_line_of_other "" (fun p v t hc => ?_)
    simp [pySplit, splitWsAux] at hc

/-- Counterexample input for the claim that non-finite numeric tokens are
rejected: Python `float("inf")` succeeds, so `parse_line` accepts a line
whose value token is `inf` and returns the infinite value. -/
theorem c5_nonfinite_token_accepted :
    parse_line "a inf 3" = some ("a", PyFloat.finite 3, PyFloat.inf) := by
  have hs : pySplit "a inf 3" = ["a", "inf", "3"] := by
    simp [pySplit, splitWsAux]
  have hv : pyFloatOfString "inf" = some PyFloat.inf := by
    simp [pyFloatOfString, pyFloatOfChars, lowerChar]
  have ht : pyFloatOfString "3" = some (PyFloat.finite 3) := by
    simp [pyFloatOfString, pyFloatOfChars, lowerChar, parseDecimal, digitRunGo]
  rw [parse_line_of_three _ "a" "inf" "3" hs, hv, ht]
  rfl

/-- Witness for `c5_parse_line_amended` on the line `"one 1 1"`. -/
theorem c5_parse_line_amended_witness :
    pySplit "one 1 1" = ["one", "1", "1"] ∧
    pyFloatOfString "1" = some (PyFloat.finite 1) ∧
    parse_line "one 1 1" = some ("one", PyFloat.finite 1, PyFloat.finite 1) :=
  have hs : pySplit "one 1 1" = ["one", "1", "1"] := by simp [pySplit, splitWsAux]
  have hv : pyFloatOfString "1" = some (PyFloat.finite 1) := by
    simp [pyFloatOfString, pyFloatOfChars, lowerChar, parseDecimal, digitRunGo]
  ⟨hs, hv, (c5_parse_line_amended "one 1 1").1 "one" "1" "1"
    (PyFloat.finite 1) (PyFloat.finite 1) hs hv hv⟩

/-- Stepping a group with the same `q` as already recorded accumulates the
values in order and never trips the `q changed` assertion. -/
theorem stepMany_some (q : ℚ) (vs : List ℚ) : ∀ l : List ℚ,
    QuantileAggregate.stepMany ⟨l, some q⟩ q vs = some ⟨l ++ vs, some q⟩ := by
  induction vs with
  | nil => intro l; simp [QuantileAggregate.stepMany]
  | cons v vs ih =>
    intro l
    have h1 : QuantileAggregate.stepMany ⟨l, some q⟩ q (v :: vs) =
        QuantileAggregate.stepMany ⟨l ++ [v], some q⟩ q vs := by
      simp [QuantileAggregate.stepMany, QuantileAggregate.step]
    rw [h1, ih (l ++ [v])]
    simp

/-- Stepping a non-empty group from the initial state records the group's
values and its `q`. -/
theorem stepMany_init (q v : ℚ) (vs : List ℚ) :
    QuantileAggregate.stepMany QuantileAggregate.init q (v :: vs) = some ⟨v :: vs, some q⟩ := by
  have h1 : QuantileAggregate.stepMany QuantileAggregate.init q (v :: vs) =
      QuantileAggregate.stepMany ⟨[v], some q⟩ q vs := by
    simp [QuantileAggregate.stepMany, QuantileAggregate.init, QuantileAggregate.step]
  rw [h1, stepMany_some q vs [v]]
  rfl

/-- C7: stepping any non-empty group of values with a constant `q ∈ [0, 1]`
and finalizing returns the linear-interpolation percentile of the values at
`q × 100`; over the values `[1, 5]` the result is `4.6` for `q = 0.9` and
`4.96` for `q = 0.99`. -/
theorem c7_quantile_aggregate :
    (∀ (vs : List ℚ) (q : ℚ), vs ≠ [] → 0 ≤ q → q ≤ 1 →
        ∃ st, QuantileAggregate.stepMany QuantileAggregate.init q vs = some st ∧
          st.finalize = some (percentile vs (q * 100))) ∧
    (∃ st, QuantileAggregate.stepMany QuantileAggregate.init (9/10) [1, 5] = some st ∧
        st.finalize = some (23/5)) ∧
    (∃ st, QuantileAggregate.stepMany QuantileAggregate.init (99/100) [1, 5] = some st ∧
        st.finalize = some (124/25)) := by
  refine ⟨?_, ?_, ?_⟩
  · intro vs q hne hq0 hq1
    obtain ⟨v, vs', rfl⟩ := List.exists_cons_of_ne_nil hne
    refine ⟨⟨v :: vs', some q⟩, stepMany_init q v vs', ?_⟩
    show numpyPercentile (v :: vs') (q * 100) = _
    rw [numpyPercentile, if_pos ⟨by linarith, by linarith⟩]
  · refine ⟨⟨[1, 5], some (9/10)⟩, stepMany_init (9/10) 1 [5], ?_⟩
    show numpyPercentile [1, 5] (9/10 * 100) = _
    rw [numpyPercentile, if_pos (by norm_num)]
    norm_num [percentile, sortRat, insertRat, List.getD]
  · refine ⟨⟨[1, 5], some (99/100)⟩, stepMany_init (99/100) 1 [5], ?_⟩
    show numpyPercentile [1, 5] (99/100 * 100) = _
    rw [numpyPercentile, if_pos (by norm_num)]
    norm_num [percentile, sortRat, insertRat, List.getD]

/-- Witness for `c7_quantile_aggregate` on the group `[1, 5]` with
`q = 9/10`. -/
theorem c7_quantile_aggregate_witness :
    ([1, 5] : List ℚ) ≠ [] ∧ (0 : ℚ) ≤ 9/10 ∧ (9/10 : ℚ) ≤ 1 ∧
      ∃ st, QuantileAggregate.stepMany QuantileAggregate.init (9/10) [1, 5] = some st ∧
        st.finalize = some (percentile [1, 5] ((9/10) * 100)) :=
  ⟨by simp, by norm_num, by norm_num,
   c7_quantile_aggregate.1 [1, 5] (9/10) (by simp) (by norm_num) (by norm_num)⟩

/-- Counterexample input for the claim that the finalizer never fails once
a value was stepped: with the constant `q = 2` the program's finalizer
calls `numpy.percentile(values, 200)`, which raises `ValueError`
(percentiles must lie in `[0, 100]`), so finalize fails on the group `[1]`
despite a stepped value and a constant `q`. -/
theorem c10_percentile_range_counterexample :
    QuantileAggregate.stepMany QuantileAggregate.init 2 [1] = some ⟨[1], some 2⟩ ∧
    (⟨[1], some 2⟩ : QuantileAggregate).finalize = none :=
  ⟨stepMany_init 2 1 [], by
    show numpyPercentile [1] (2 * 100) = none
    rw [numpyPercentile, if_neg (by norm_num)]⟩

/-- C10 (amended): finalizing the quantile aggregate with no stepped value
fails its assertion (modelled as `none`); after stepping at least one value
with a constant `q ∈ [0, 1]` the finalizer always produces a value (for a
constant `q` outside `[0, 1]` it fails with `numpy.percentile`'s range
error instead). -/
theorem c10_finalize_empty_vs_nonempty :
    QuantileAggregate.init.finalize = none ∧
    (∀ (vs : List ℚ) (q : ℚ) (st : QuantileAggregate), vs ≠ [] → 0 ≤ q → q ≤ 1 →
        QuantileAggregate.stepMany QuantileAggregate.init q vs = some st →
        ∃ r, st.finalize = some r) := by
  refine ⟨rfl, ?_⟩
  intro vs q st hne hq0 hq1 hrun
  obtain ⟨v, vs', rfl⟩ := List.exists_cons_of_ne_nil hne
  rw [stepMany_init] at hrun
  obtain rfl : (⟨v :: vs', some q⟩ : QuantileAggregate) = st := Option.some.inj hrun
  refine ⟨percentile (v :: vs') (q * 100), ?_⟩
  show numpyPercentile (v :: vs') (q * 100) = _
  rw [numpyPercentile, if_pos ⟨by linarith, by linarith⟩]

/-- Witness for `c10_finalize_empty_vs_nonempty` on the group `[2]` with
`q = 1/2`. -/
theorem c10_finalize_empty_vs_nonempty_witness :
    ([2] : List ℚ) ≠ [] ∧ (0 : ℚ) ≤ 1/2 ∧ (1/2 : ℚ) ≤ 1 ∧
      QuantileAggregate.stepMany QuantileAggregate.init (1/2) [2] =
        some ⟨[2], some (1/2)⟩ ∧
      ∃ r, (⟨[2], some (1/2)⟩ : QuantileAggregate).finalize = some r :=
  ⟨by simp, by norm_num, by norm_num, stepMany_init (1/2) 2 [],
   c10_finalize_empty_vs_nonempty.2 [2] (1/2) ⟨[2], some (1/2)⟩ (by simp)
     (by norm_num) (by norm_num) (stepMany_init (1/2) 2 [])⟩

/-- C8: on a tick or shutdown item with a non-empty buffer the consumer
makes exactly one insert call consisting of the buffered samples (plus the
`"{prefix}.insert"` self-metric when a prefix is configured); on success
the buffer becomes empty, and on failure the buffer keeps every buffered
sample with one `"{prefix}.error"` self-metric appended when a prefix is
configured, so they are retried on the next tick. -/
theorem c8_consumer_insert_once (pfx : Option String) (now : ℚ) (ok : Bool)
    (buf : List Sample) (hne : buf ≠ []) (item : QueueItem)
    (hi : item = QueueItem.tick ∨ item = QueueItem.done) :
    (consumerStep pfx now ok buf item).1 = [buf ++ selfOkList pfx now buf] ∧
    (ok = true → (consumerStep pfx now ok buf item).2.1 = []) ∧
    (ok = false → (consumerStep pfx now ok buf item).2.1 = buf ++ selfErrorList pfx now) := by
  have hp : processModel pfx now ok buf =
      if ok then ([buf ++ selfOkList pfx now buf], [])
      else ([buf ++ selfOkList pfx now buf], buf ++ selfErrorList pfx now) := by
    rw [processModel, if_neg hne]
  rcases hi with rfl | rfl <;>
  · simp only [consumerStep, hp]
    cases ok <;> simp

/-- Witness for `c8_consumer_insert_once`: a one-sample buffer, a
configured prefix, a failing insert, on a tick. -/
theorem c8_consumer_insert_once_witness :
    ([⟨"m", 1, 2⟩] : List Sample) ≠ [] ∧
      ((consumerStep (some "d") 0 false [⟨"m", 1, 2⟩] QueueItem.tick).1 =
          [[⟨"m", 1, 2⟩] ++ selfOkList (some "d") 0 [⟨"m", 1, 2⟩]] ∧
        (false = true →
          (consumerStep (some "d") 0 false [⟨"m", 1, 2⟩] QueueItem.tick).2.1 = []) ∧
        (false = false →
          (consumerStep (some "d") 0 false [⟨"m", 1, 2⟩] QueueItem.tick).2.1 =
            [⟨"m", 1, 2⟩] ++ selfErrorList (some "d") 0)) :=
  ⟨by simp,
   c8_consumer_insert_once (some "d") 0 false [⟨"m", 1, 2⟩] (by simp)
     QueueItem.tick (Or.inl rfl)⟩

/-- C6 (code-bug evaluation): `tsdb.py` imports only `utcnow` from
`.utils`, never `epoch_from_datetime`, so any `get_metric` call whose start
or end endpoint is a date-time raises `NameError` in the conversion branch
and returns no sequence, while the same call with numeric epoch endpoints
succeeds. -/
theorem c6_get_metric_datetime_nameerror :
    (∀ (st : Store) (path period stat : String) (d : PyDatetime) (b : TimeArg),
        get_metric st path period stat (TimeArg.dt d, b) = none) ∧
    (∀ (st : Store) (path period stat : String) (a : TimeArg) (d : PyDatetime),
        get_metric st path period stat (a, TimeArg.dt d) = none) ∧
    get_metric
        { incoming := [],
          rollups := fun _ => [⟨"a", 5, 1, 1, 1, 1, 1, 1, 1, 1⟩] }
        "a" "tensecond" "n" (TimeArg.num 0, TimeArg.num 10) = some [(5, 1)] := by
  refine ⟨?_, ?_, ?_⟩
  · intro st path period stat d b
    rw [get_metric]
    split
    · cases b <;> rfl
    · rfl
  · intro st path period stat a d
    rw [get_metric]
    split
    · cases a <;> rfl
    · rfl
  · rw [get_metric, if_pos (by decide)]
    norm_num [sortByTs, insertByTs, statValue, List.filter_cons, decide_eq_true_eq]

/-- Membership after a single upsert. -/
theorem mem_upsertRow {t : List AggRow} {w r : AggRow} (h : r ∈ upsertRow t w) :
    r ∈ t ∨ r = w := by
  rw [upsertRow] at h
  rcases List.mem_append.mp h with h | h
  · exact Or.inl (List.mem_filter.mp h).1
  · exact Or.inr (List.mem_singleton.mp h)

/-- Membership after upserting a list of rows. -/
theorem mem_upsertRows {ws : List AggRow} : ∀ {t : List AggRow} {r : AggRow},
    r ∈ upsertRows t ws → r ∈ t ∨ r ∈ ws := by
  induction ws with
  | nil => intro t r h; exact Or.inl h
  | cons w ws ih =>
    intro t r h
    rcases ih (t := upsertRow t w) h with h' | h'
    · rcases mem_upsertRow h' with h'' | h''
      · exact Or.inl h''
      · exact Or.inr (by simp [h''])
    · exact Or.inr (List.mem_cons_of_mem w h')

/-- Every row the sync query produces has a bucket timestamp, an integer
multiple of the period. -/
theorem syncRows_timestamp_multiple {P : ℕ} {inc : List Sample} {p : String} {a b : ℚ}
    {row : AggRow} (h : row ∈ syncRows P inc p a b) :
    ∃ k : ℤ, row.timestamp = (k : ℚ) * P := by
  rw [syncRows] at h
  obtain ⟨bkt, hbkt, rfl⟩ := List.mem_map.mp h
  rw [groupBuckets] at hbkt
  obtain ⟨s, _, rfl⟩ := List.mem_map.mp (List.mem_dedup.mp hbkt)
  refine ⟨sqliteDiv (sqliteCastInt s.timestamp) P, ?_⟩
  show bucketTs P s.timestamp = _
  rw [bucketTs]
  push_cast
  ring

/-- Every selected sample is aggregated into a sync-query row whose
timestamp is the sample's bucket. -/
theorem select_bucket_mem {P : ℕ} {inc : List Sample} {p : String} {a b : ℚ}
    {s : Sample} (h : s ∈ selectIncoming inc p a b) :
    ∃ row ∈ syncRows P inc p a b, row.timestamp = bucketTs P s.timestamp := by
  rw [syncRows]
  have hbkt : bucketTs P s.timestamp ∈ groupBuckets P (selectIncoming inc p a b) := by
    rw [groupBuckets, List.mem_dedup]
    exact List.mem_map.mpr ⟨s, h, rfl⟩
  exact ⟨_, List.mem_map.mpr ⟨bucketTs P s.timestamp, hbkt, rfl⟩, rfl⟩

/-- Applying the per-period fold at a name not in the list leaves its table
unchanged. -/
theorem periods_foldl_apply_notmem (now : ℚ) (inc : List Sample) :
    ∀ (ps : List (String × ℕ)) (f : String → List AggRow) (name : String),
      name ∉ ps.map Prod.fst → ps.foldl (periodStep now inc) f name = f name := by
  intro ps
  induction ps with
  | nil => intro f name _; rfl
  | cons nP ps ih =>
    intro f name h
    rw [List.map_cons, List.mem_cons, not_or] at h
    rw [List.foldl_cons, ih _ name h.2, periodStep,
      Function.update_noteq h.1]

/-- Applying the per-period fold at a listed period name yields that
period's sync pass over the original table (period names are distinct). -/
theorem periods_foldl_apply (now : ℚ) (inc : List Sample) :
    ∀ (ps : List (String × ℕ)) (f : String → List AggRow) (name : String) (P : ℕ),
      (ps.map Prod.fst).Nodup → (name, P) ∈ ps →
      ps.foldl (periodStep now inc) f name = syncPeriod now P inc (f name) := by
  intro ps
  induction ps with
  | nil => intro f name P _ h; exact absurd h (List.not_mem_nil _)
  | cons nP ps ih =>
    intro f name P hnd hmem
    rw [List.map_cons, List.nodup_cons] at hnd
    rcases List.mem_cons.mp hmem with rfl | hmem'
    · have hnot : name ∉ ps.map Prod.fst := hnd.1
      rw [List.foldl_cons, periods_foldl_apply_notmem now inc ps _ name hnot, periodStep,
        Function.update_same]
    · have hne : name ≠ nP.1 := by
        intro heq
        exact hnd.1 (heq ▸ List.mem_map.mpr ⟨(name, P), hmem', rfl⟩)
      rw [List.foldl_cons, ih _ name P hnd.2 hmem', periodStep,
        Function.update_noteq hne]

/-- Rows of a period pass are either pre-existing or sync-query rows. -/
theorem mem_syncPeriod {now : ℚ} {P : ℕ} {inc : List Sample} {t : List AggRow}
    {row : AggRow} (h : row ∈ syncPeriod now P inc t) :
    row ∈ t ∨ ∃ (q : String) (a b : ℚ), row ∈ syncRows P inc q a b := by
  rw [syncPeriod] at h
  suffices H : ∀ (qs : List String) (tbl : List AggRow),
      row ∈ qs.foldl (pathPass now P inc t) tbl →
      row ∈ tbl ∨ ∃ (q : String) (a b : ℚ), row ∈ syncRows P inc q a b from
    H (distinctPaths inc) t h
  intro qs
  induction qs with
  | nil => intro tbl h'; exact Or.inl h'
  | cons q qs ih =>
    intro tbl h'
    rcases ih _ h' with h'' | h''
    · rcases mem_upsertRows h'' with h3 | h3
      · exact Or.inl h3
      · exact Or.inr ⟨q, _, _, h3⟩
    · exact Or.inr h''

/-- C4 (amended): every row that sync writes into the rollup table of
period `P` has timestamp equal to the SQLite bucket
`trunc(trunc(s) / P) * P` (truncation toward zero) of the timestamps `s` of
the samples it aggregates — which is `floor(s/P)*P` only for `s ≥ 0` — and
is in particular an integer multiple of `P`, also for negative timestamps:
a synced rollup table contains only pre-existing rows and multiples of
`P`. -/
theorem c4_bucket_timestamps :
    (∀ (P : ℕ) (inc : List Sample) (p : String) (a b : ℚ), 0 < P →
        ∀ s ∈ selectIncoming inc p a b,
          ∃ row ∈ syncRows P inc p a b, row.timestamp = bucketTs P s.timestamp) ∧
    (∀ (P : ℕ) (inc : List Sample) (p : String) (a b : ℚ),
        ∀ row ∈ syncRows P inc p a b, ∃ k : ℤ, row.timestamp = (k : ℚ) * P) ∧
    (∀ (st : Store) (now : ℚ) (name : String) (P : ℕ), (name, P) ∈ PERIODS →
        ∀ row ∈ (syncStore now st).rollups name,
          row ∈ st.rollups name ∨ ∃ k : ℤ, row.timestamp = (k : ℚ) * P) := by
  refine ⟨?_, ?_, ?_⟩
  · intro P inc p a b _ s hs
    exact select_bucket_mem hs
  · intro P inc p a b row hrow
    exact syncRows_timestamp_multiple hrow
  · intro st now name P hmem row hrow
    have hnd : (PERIODS.map Prod.fst).Nodup := by decide
    have hru : (syncStore now st).rollups name =
        syncPeriod now P st.incoming (st.rollups name) := by
      show (PERIODS.foldl (periodStep now st.incoming) st.rollups) name = _
      exact periods_foldl_apply now st.incoming PERIODS st.rollups name P hnd hmem
    rw [hru] at hrow
    rcases mem_syncPeriod hrow with h | ⟨q, a, b, h⟩
    · exact Or.inl h
    · exact Or.inr (syncRows_timestamp_multiple h)

/-- Witness for `c4_bucket_timestamps`: period 10, one sample at `t = 3`
selected on `[0, 10]`. -/
theorem c4_bucket_timestamps_witness :
    (0 < 10) ∧ ((⟨"a", 3, 1⟩ : Sample) ∈ selectIncoming [⟨"a", 3, 1⟩] "a" 0 10) ∧
      ∃ row ∈ syncRows 10 [⟨"a", 3, 1⟩] "a" 0 10,
        row.timestamp = bucketTs 10 (⟨"a", 3, 1⟩ : Sample).timestamp :=
  have hsel : (⟨"a", 3, 1⟩ : Sample) ∈ selectIncoming [⟨"a", 3, 1⟩] "a" 0 10 := by
    rw [selectIncoming, List.mem_filter, decide_eq_true_eq]
    exact ⟨List.mem_singleton_self _, rfl, by norm_num, by norm_num⟩
  ⟨by norm_num, hsel,
   c4_bucket_timestamps.1 10 [⟨"a", 3, 1⟩] "a" 0 10 (by norm_num) ⟨"a", 3, 1⟩ hsel⟩

/-- Counterexample input for the floor-bucket claim: starting from a rollup
table whose last final timestamp is `-20`, syncing one incoming sample at
timestamp `-5` (period 10, `now = 60`) writes a rollup row with timestamp
`0` — the SQLite truncating bucket — while `⌊-5/10⌋ * 10 = -10 ≠ 0`; the
multiple-of-`P` part still holds at this input. -/
theorem c4_truncation_counterexample :
    pathRows ((syncStore 60
        { incoming := [⟨"a", -5, 1⟩],
          rollups := Function.update (fun _ => []) "tensecond"
            [⟨"a", -20, 1, 1, 1, 1, 1, 1, 1, 1⟩] }).rollups "tensecond") "a" =
      [⟨"a", -20, 1, 1, 1, 1, 1, 1, 1, 1⟩, ⟨"a", 0, 1, 1, 1, 1, 1, 1, 1, 1⟩] ∧
    bucketTs 10 (-5) = 0 ∧
    (⌊((-5 : ℚ)) / 10⌋ : ℚ) * 10 = -10 ∧ ((0 : ℚ) ≠ -10) := by
  have hb : bucketTs 10 (-5) = 0 := by
    have h1 : sqliteCastInt (-5) = -5 := by
      rw [sqliteCastInt, if_neg (by norm_num),
        show ((-5 : ℚ)) = ((-5 : ℤ) : ℚ) by norm_num, Int.ceil_intCast]
    have h2 : sqliteDiv (-5) 10 = 0 := by
      rw [sqliteDiv, if_neg (by norm_num)]
      norm_num
    rw [bucketTs, h1, show ((10 : ℕ) : ℤ) = (10 : ℤ) by norm_num, h2]
    norm_num
  refine ⟨?_, hb, by norm_num, by norm_num⟩
  have hru : (syncStore 60
      { incoming := [⟨"a", -5, 1⟩],
        rollups := Function.update (fun _ => []) "tensecond"
          [⟨"a", -20, 1, 1, 1, 1, 1, 1, 1, 1⟩] }).rollups "tensecond" =
      syncPeriod 60 10 [⟨"a", -5, 1⟩]
        ((Function.update (fun _ => ([] : List AggRow)) "tensecond"
          [⟨"a", -20, 1, 1, 1, 1, 1, 1, 1, 1⟩]) "tensecond") :=
    periods_foldl_apply 60 [⟨"a", -5, 1⟩] PERIODS _ "tensecond" 10 (by decide) (by decide)
  rw [hru, Function.update_same]
  have hlf : lastFinal [⟨"a", -20, 1, 1, 1, 1, 1, 1, 1, 1⟩] "a" = some (-20) := by
    norm_num [lastFinal, tsList, pathRows, List.filter_cons, decide_eq_true_eq]
  have hsel : selectIncoming [⟨"a", -5, 1⟩] "a" (-10) 0 = [⟨"a", -5, 1⟩] := by
    norm_num [selectIncoming, List.filter_cons, decide_eq_true_eq]
  have hagg : aggRow "a" 0 [1] = ⟨"a", 0, 1, 1, 1, 1, 1, 1, 1, 1⟩ := by
    norm_num [aggRow, listMin, listMax, percentile, sortRat, insertRat, List.getD]
  have hsr : syncRows 10 [⟨"a", -5, 1⟩] "a" (-10) 0 =
      [⟨"a", 0, 1, 1, 1, 1, 1, 1, 1, 1⟩] := by
    rw [syncRows]
    simp only [hsel]
    rw [show groupBuckets 10 [⟨"a", -5, 1⟩] = [0] by
      simp [groupBuckets, hb, List.dedup]]
    simp only [List.map_cons, List.map_nil, List.filter_cons, List.filter_nil, hb]
    simp [hagg]
  have hw : writeRowsFor 60 10 [⟨"a", -5, 1⟩] [⟨"a", -20, 1, 1, 1, 1, 1, 1, 1, 1⟩] "a" =
      [⟨"a", 0, 1, 1, 1, 1, 1, 1, 1, 1⟩] := by
    rw [writeRowsFor, hlf]
    have hi : (intervals ((10 : ℕ) : ℚ) TAIL 60 (some (-20))).1 = (-10, 0) := by
      norm_num [intervals, TAIL, Option.getD]
    rw [hi]
    exact hsr
  have hdp : distinctPaths [(⟨"a", -5, 1⟩ : Sample)] = ["a"] := by
    norm_num [distinctPaths, List.dedup]
  rw [syncPeriod, hdp, List.foldl_cons, List.foldl_nil, pathPass, hw]
  have hup : upsertRows [⟨"a", -20, 1, 1, 1, 1, 1, 1, 1, 1⟩]
      [⟨"a", 0, 1, 1, 1, 1, 1, 1, 1, 1⟩] =
      [⟨"a", -20, 1, 1, 1, 1, 1, 1, 1, 1⟩, ⟨"a", 0, 1, 1, 1, 1, 1, 1, 1, 1⟩] := by
    rw [upsertRows, List.foldl_cons, List.foldl_nil, upsertRow]
    norm_num [List.filter_cons, decide_eq_true_eq]
  rw [hup]
  norm_num [pathRows, List.filter_cons, decide_eq_true_eq]

/-- Evaluation of `_sync` at the input that violates the half-open /
empty-final-interval claim: with last final timestamp `10` and `now = 80`
(period 10, tail 60) the final interval is `(20, 20)` — empty by the spec —
yet the sync query's inclusive `between` selects the sample at timestamp
`20 = final_end` and writes a rollup row for it. -/
theorem c2_between_inclusive_eval :
    (intervals 10 TAIL 80 (some 10)).1 = (20, 20) ∧
    selectIncoming [⟨"a", 20, 5⟩] "a" 20 20 = [⟨"a", 20, 5⟩] ∧
    pathRows ((syncStore 80
        { incoming := [⟨"a", 20, 5⟩],
          rollups := Function.update (fun _ => []) "tensecond"
            [⟨"a", 10, 1, 1, 1, 1, 1, 1, 1, 1⟩] }).rollups "tensecond") "a" =
      [⟨"a", 10, 1, 1, 1, 1, 1, 1, 1, 1⟩, ⟨"a", 20, 1, 5, 5, 5, 5, 5, 5, 5⟩] := by
  have hsel : selectIncoming [⟨"a", 20, 5⟩] "a" 20 20 = [⟨"a", 20, 5⟩] := by
    norm_num [selectIncoming, List.filter_cons, decide_eq_true_eq]
  refine ⟨by norm_num [intervals, TAIL, Option.getD], hsel, ?_⟩
  have hb : bucketTs 10 20 = 20 := by
    have h1 : sqliteCastInt 20 = 20 := by
      rw [sqliteCastInt, if_pos (by norm_num)]
      norm_num
    have h2 : sqliteDiv 20 10 = 2 := by
      rw [sqliteDiv, if_pos (by norm_num)]
      norm_num
    rw [bucketTs, h1, show ((10 : ℕ) : ℤ) = (10 : ℤ) by norm_num, h2]
    norm_num
  have hru : (syncStore 80
      { incoming := [⟨"a", 20, 5⟩],
        rollups := Function.update (fun _ => []) "tensecond"
          [⟨"a", 10, 1, 1, 1, 1, 1, 1, 1, 1⟩] }).rollups "tensecond" =
      syncPeriod 80 10 [⟨"a", 20, 5⟩]
        ((Function.update (fun _ => ([] : List AggRow)) "tensecond"
          [⟨"a", 10, 1, 1, 1, 1, 1, 1, 1, 1⟩]) "tensecond") :=
    periods_foldl_apply 80 [⟨"a", 20, 5⟩] PERIODS _ "tensecond" 10 (by decide) (by decide)
  rw [hru, Function.update_same]
  have hlf : lastFinal [⟨"a", 10, 1, 1, 1, 1, 1, 1, 1, 1⟩] "a" = some 10 := by
    norm_num [lastFinal, tsList, pathRows, List.filter_cons, decide_eq_true_eq]
  have hagg : aggRow "a" 20 [5] = ⟨"a", 20, 1, 5, 5, 5, 5, 5, 5, 5⟩ := by
    norm_num [aggRow, listMin, listMax, percentile, sortRat, insertRat, List.getD]
  have hsr : syncRows 10 [⟨"a", 20, 5⟩] "a" 20 20 =
      [⟨"a", 20, 1, 5, 5, 5, 5, 5, 5, 5⟩] := by
    rw [syncRows]
    simp only [hsel]
    rw [show groupBuckets 10 [⟨"a", 20, 5⟩] = [20] by
      simp [groupBuckets, hb, List.dedup]]
    simp only [List.map_cons, List.map_nil, List.filter_cons, List.filter_nil, hb]
    simp [hagg]
  have hw : writeRowsFor 80 10 [⟨"a", 20, 5⟩] [⟨"a", 10, 1, 1, 1, 1, 1, 1, 1, 1⟩] "a" =
      [⟨"a", 20, 1, 5, 5, 5, 5, 5, 5, 5⟩] := by
    rw [writeRowsFor, hlf]
    have hi : (intervals ((10 : ℕ) : ℚ) TAIL 80 (some 10)).1 = (20, 20) := by
      norm_num [intervals, TAIL, Option.getD]
    rw [hi]
    exact hsr
  have hdp : distinctPaths [(⟨"a", 20, 5⟩ : Sample)] = ["a"] := by
    norm_num [distinctPaths, List.dedup]
  rw [syncPeriod, hdp, List.foldl_cons, List.foldl_nil, pathPass, hw]
  have hup : upsertRows [⟨"a", 10, 1, 1, 1, 1, 1, 1, 1, 1⟩]
      [⟨"a", 20, 1, 5, 5, 5, 5, 5, 5, 5⟩] =
      [⟨"a", 10, 1, 1, 1, 1, 1, 1, 1, 1⟩, ⟨"a", 20, 1, 5, 5, 5, 5, 5, 5, 5⟩] := by
    rw [upsertRows, List.foldl_cons, List.foldl_nil, upsertRow]
    norm_num [List.filter_cons, decide_eq_true_eq]
  rw [hup]
  norm_num [pathRows, List.filter_cons, decide_eq_true_eq]

/-- Membership characterization of the recorded timestamps of a path. -/
theorem mem_tsList {t : List AggRow} {p : String} {x : ℚ} :
    x ∈ tsList t p ↔ ∃ r ∈ t, r.path = p ∧ r.timestamp = x := by
  simp [tsList, pathRows, List.mem_filter, and_assoc]

/-- Membership characterization of the selected incoming rows. -/
theorem mem_selectIncoming {inc : List Sample} {p : String} {a b : ℚ} {s : Sample} :
    s ∈ selectIncoming inc p a b ↔
      s ∈ inc ∧ s.path = p ∧ a ≤ s.timestamp ∧ s.timestamp ≤ b := by
  simp [selectIncoming, List.mem_filter]

/-- Membership characterization of the distinct incoming paths. -/
theorem mem_distinctPaths {inc : List Sample} {p : String} :
    p ∈ distinctPaths inc ↔ ∃ s ∈ inc, s.path = p := by
  simp [distinctPaths, List.mem_dedup]

/-- Membership characterization of the group buckets. -/
theorem mem_groupBuckets {P : ℕ} {rows : List Sample} {x : ℚ} :
    x ∈ groupBuckets P rows ↔ ∃ s ∈ rows, bucketTs P s.timestamp = x := by
  simp [groupBuckets, List.mem_dedup]

/-- The sync query writes one row per group bucket. -/
theorem syncRows_map_timestamp (P : ℕ) (inc : List Sample) (p : String) (a b : ℚ) :
    (syncRows P inc p a b).map AggRow.timestamp =
      groupBuckets P (selectIncoming inc p a b) := by
  rw [syncRows, List.map_map]
  exact List.map_id _

/-- All sync-query rows carry the queried path. -/
theorem syncRows_path {P : ℕ} {inc : List Sample} {p : String} {a b : ℚ} :
    ∀ row ∈ syncRows P inc p a b, row.path = p := by
  intro row hrow
  rw [syncRows] at hrow
  obtain ⟨bkt, _, rfl⟩ := List.mem_map.mp hrow
  rfl

/-- The sync query writes nothing exactly when it selects nothing. -/
theorem syncRows_eq_nil_iff {P : ℕ} {inc : List Sample} {p : String} {a b : ℚ} :
    syncRows P inc p a b = [] ↔ selectIncoming inc p a b = [] := by
  rw [syncRows, List.map_eq_nil_iff, groupBuckets, List.dedup_eq_nil, List.map_eq_nil_iff]

/-- After an upsert of a row of the path, the recorded timestamps are the
old ones plus the upserted one (replaced rows share the new timestamp). -/
theorem mem_tsList_upsertRow {t : List AggRow} {w : AggRow} {p : String} {x : ℚ}
    (hw : w.path = p) :
    x ∈ tsList (upsertRow t w) p ↔ x ∈ tsList t p ∨ x = w.timestamp := by
  constructor
  · intro h
    obtain ⟨r, hr, hrp, hrx⟩ := mem_tsList.mp h
    rcases mem_upsertRow hr with h' | rfl
    · exact Or.inl (mem_tsList.mpr ⟨r, h', hrp, hrx⟩)
    · exact Or.inr hrx.symm
  · intro h
    have hwmem : w ∈ upsertRow t w := by
      rw [upsertRow]
      exact List.mem_append_right _ (List.mem_singleton_self w)
    rcases h with h | rfl
    · obtain ⟨r, hr, hrp, hrx⟩ := mem_tsList.mp h
      by_cases hkey : r.path = w.path ∧ r.timestamp = w.timestamp
      · exact mem_tsList.mpr ⟨w, hwmem, hw, hkey.2 ▸ hrx⟩
      · refine mem_tsList.mpr ⟨r, ?_, hrp, hrx⟩
        rw [upsertRow]
        refine List.mem_append_left _ (List.mem_filter.mpr ⟨hr, decide_eq_true hkey⟩)
    · exact mem_tsList.mpr ⟨w, hwmem, hw, rfl⟩

/-- An upsert of a row of another path leaves a path's timestamps alone. -/
theorem mem_tsList_upsertRow_ne {t : List AggRow} {w : AggRow} {p : String} {x : ℚ}
    (hw : w.path ≠ p) :
    x ∈ tsList (upsertRow t w) p ↔ x ∈ tsList t p := by
  constructor
  · intro h
    obtain ⟨r, hr, hrp, hrx⟩ := mem_tsList.mp h
    rcases mem_upsertRow hr with h' | rfl
    · exact mem_tsList.mpr ⟨r, h', hrp, hrx⟩
    · exact absurd hrp hw
  · intro h
    obtain ⟨r, hr, hrp, hrx⟩ := mem_tsList.mp h
    have hkey : ¬(r.path = w.path ∧ r.timestamp = w.timestamp) := by
      intro hk
      exact hw (hk.1 ▸ hrp)
    refine mem_tsList.mpr ⟨r, ?_, hrp, hrx⟩
    rw [upsertRow]
    exact List.mem_append_left _ (List.mem_filter.mpr ⟨hr, decide_eq_true hkey⟩)

/-- Upserting rows of the path adds exactly their timestamps. -/
theorem mem_tsList_upsertRows {ws : List AggRow} {p : String}
    (hws : ∀ w ∈ ws, w.path = p) : ∀ {t : List AggRow} {x : ℚ},
    x ∈ tsList (upsertRows t ws) p ↔ x ∈ tsList t p ∨ x ∈ ws.map AggRow.timestamp := by
  induction ws with
  | nil => intro t x; simp [upsertRows]
  | cons w ws ih =>
    intro t x
    have hstep : upsertRows t (w :: ws) = upsertRows (upsertRow t w) ws := rfl
    rw [hstep, ih (fun w' hw' => hws w' (List.mem_cons_of_mem w hw')),
      mem_tsList_upsertRow (hws w (List.mem_cons_self w ws))]
    simp only [List.map_cons, List.mem_cons]
    tauto

/-- Upserting rows of another path leaves a path's timestamps alone. -/
theorem mem_tsList_upsertRows_ne {ws : List AggRow} {p : String}
    (hws : ∀ w ∈ ws, w.path ≠ p) : ∀ {t : List AggRow} {x : ℚ},
    x ∈ tsList (upsertRows t ws) p ↔ x ∈ tsList t p := by
  induction ws with
  | nil => intro t x; simp [upsertRows]
  | cons w ws ih =>
    intro t x
    have hstep : upsertRows t (w :: ws) = upsertRows (upsertRow t w) ws := rfl
    rw [hstep, ih (fun w' hw' => hws w' (List.mem_cons_of_mem w hw')),
      mem_tsList_upsertRow_ne (hws w (List.mem_cons_self w ws))]

/-- A left fold of `max` lands on one of its inputs. -/
theorem foldl_max_mem (xs : List ℚ) : ∀ x : ℚ, xs.foldl max x ∈ x :: xs := by
  induction xs with
  | nil => intro x; exact List.mem_singleton_self x
  | cons a xs ih =>
    intro x
    rw [List.foldl_cons]
    rcases List.mem_cons.mp (ih (max x a)) with h | h
    · rw [h]
      rcases max_choice x a with h' | h' <;> rw [h']
      · exact List.mem_cons_self x (a :: xs)
      · exact List.mem_cons_of_mem x (List.mem_cons_self a xs)
    · exact List.mem_cons_of_mem x (List.mem_cons_of_mem a h)

/-- A left fold of `max` bounds all of its inputs. -/
theorem le_foldl_max (xs : List ℚ) : ∀ x : ℚ, ∀ y ∈ x :: xs, y ≤ xs.foldl max x := by
  induction xs with
  | nil =>
    intro x y hy
    rw [List.mem_singleton.mp hy]
    exact le_refl x
  | cons a xs ih =>
    intro x y hy
    rw [List.foldl_cons]
    rcases List.mem_cons.mp hy with rfl | hy'
    · exact le_trans (le_max_left y a) (ih (max y a) _ (List.mem_cons_self _ xs))
    · rcases List.mem_cons.mp hy' with rfl | hy''
      · exact le_trans (le_max_right x y) (ih (max x y) _ (List.mem_cons_self _ xs))
      · exact ih (max x a) y (List.mem_cons_of_mem _ hy'')

/-- `lastFinal` is `none` exactly on paths with no rollup rows. -/
theorem lastFinal_eq_none_iff {t : List AggRow} {p : String} :
    lastFinal t p = none ↔ tsList t p = [] := by
  rw [lastFinal]
  cases h : tsList t p <;> simp

/-- A `lastFinal` value is a recorded timestamp. -/
theorem lastFinal_mem {t : List AggRow} {p : String} {m : ℚ}
    (h : lastFinal t p = some m) : m ∈ tsList t p := by
  cases hts : tsList t p with
  | nil => rw [lastFinal, hts] at h; exact absurd h (by simp)
  | cons x xs =>
    rw [lastFinal, hts] at h
    obtain rfl : xs.foldl max x = m := Option.some.inj h
    exact foldl_max_mem xs x

/-- A `lastFinal` value bounds all recorded timestamps. -/
theorem lastFinal_ge {t : List AggRow} {p : String} {m : ℚ}
    (h : lastFinal t p = some m) : ∀ x ∈ tsList t p, x ≤ m := by
  intro x hx
  cases hts : tsList t p with
  | nil => rw [hts] at hx; exact absurd hx (List.not_mem_nil x)
  | cons y ys =>
    rw [lastFinal, hts] at h
    obtain rfl : ys.foldl max y = m := Option.some.inj h
    rw [hts] at hx
    exact le_foldl_max ys y x hx

/-- The rows a path's pass writes all carry that path. -/
theorem writeRowsFor_path {now : ℚ} {P : ℕ} {inc : List Sample} {t : List AggRow}
    {q : String} : ∀ w ∈ writeRowsFor now P inc t q, w.path = q := by
  intro w hw
  exact syncRows_path w hw

/-- Folding the per-path passes over paths not containing `p` leaves `p`'s
timestamps alone. -/
theorem fold_tsList_notmem (now : ℚ) (P : ℕ) (inc : List Sample) (t : List AggRow)
    (p : String) : ∀ (qs : List String), p ∉ qs → ∀ (tbl : List AggRow) (x : ℚ),
    (x ∈ tsList (qs.foldl (pathPass now P inc t) tbl) p ↔ x ∈ tsList tbl p) := by
  intro qs
  induction qs with
  | nil => intro _ tbl x; exact Iff.rfl
  | cons q qs ih =>
    intro hp tbl x
    rw [List.mem_cons, not_or] at hp
    rw [List.foldl_cons]
    rw [ih hp.2 _ x]
    show x ∈ tsList (upsertRows tbl (writeRowsFor now P inc t q)) p ↔ _
    exact mem_tsList_upsertRows_ne
      (fun w hw => (writeRowsFor_path w hw) ▸ (Ne.symm hp.1)) ..

/-- Folding the per-path passes over a duplicate-free list of paths
containing `p` adds to `p`'s timestamps exactly the timestamps written for
`p` (computed from the materialized table `t`). -/
theorem fold_tsList_mem (now : ℚ) (P : ℕ) (inc : List Sample) (t : List AggRow)
    (p : String) : ∀ (qs : List String), qs.Nodup → p ∈ qs →
    ∀ (tbl : List AggRow) (x : ℚ),
    (x ∈ tsList (qs.foldl (pathPass now P inc t) tbl) p ↔
      x ∈ tsList tbl p ∨ x ∈ (writeRowsFor now P inc t p).map AggRow.timestamp) := by
  intro qs
  induction qs with
  | nil => intro _ hp; exact absurd hp (List.not_mem_nil p)
  | cons q qs ih =>
    intro hnd hp tbl x
    rw [List.nodup_cons] at hnd
    rw [List.foldl_cons]
    rcases List.mem_cons.mp hp with rfl | hp'
    · rw [fold_tsList_notmem now P inc t p qs hnd.1 _ x]
      show x ∈ tsList (upsertRows tbl (writeRowsFor now P inc t p)) p ↔ _
      exact mem_tsList_upsertRows (fun w hw => writeRowsFor_path w hw) ..
    · have hne : q ≠ p := fun h => hnd.1 (h ▸ hp')
      rw [ih hnd.2 hp' _ x]
      show (x ∈ tsList (upsertRows tbl (writeRowsFor now P inc t q)) p ∨ _) ↔ _
      rw [mem_tsList_upsertRows_ne (fun w hw => (writeRowsFor_path w hw) ▸ hne) ..]

/-- The timestamps of a path after one period pass: the old ones plus the
written buckets. -/
theorem tsList_syncPeriod (now : ℚ) (P : ℕ) (inc : List Sample) (t : List AggRow)
    (p : String) (hp : p ∈ distinctPaths inc) (x : ℚ) :
    x ∈ tsList (syncPeriod now P inc t) p ↔
      x ∈ tsList t p ∨ x ∈ (writeRowsFor now P inc t p).map AggRow.timestamp := by
  rw [syncPeriod]
  exact fold_tsList_mem now P inc t p (distinctPaths inc)
    (List.nodup_dedup _) hp t x

/-- The rows of one path's pass, with the final-interval bounds spelled
out. -/
theorem writeRowsFor_def (now : ℚ) (P : ℕ) (inc : List Sample) (t : List AggRow)
    (q : String) :
    writeRowsFor now P inc t q =
      syncRows P inc q ((lastFinal t q).getD (-(P : ℚ)) + P)
        ((⌊(now - TAIL) / (P : ℚ)⌋ : ℚ) * P) := rfl

/-- After one period pass, a second pass over any sub-list of the incoming
rows selects nothing for any of its paths: the pass advanced `last_final`
past every sample it covered. -/
theorem writeRowsFor_second_nil (P : ℕ) (hP : 0 < P) (now : ℚ) (inc inc' : List Sample)
    (t : List AggRow) (hsub : ∀ r ∈ inc', r ∈ inc) (q : String)
    (hq : q ∈ distinctPaths inc') :
    writeRowsFor now P inc' (syncPeriod now P inc t) q = [] := by
  have hPq : (0 : ℚ) < P := by exact_mod_cast hP
  have hq' : q ∈ distinctPaths inc := by
    obtain ⟨s, hs, hsp⟩ := mem_distinctPaths.mp hq
    exact mem_distinctPaths.mpr ⟨s, hsub s hs, hsp⟩
  have hts : ∀ x : ℚ, x ∈ tsList (syncPeriod now P inc t) q ↔
      x ∈ tsList t q ∨ x ∈ (writeRowsFor now P inc t q).map AggRow.timestamp :=
    tsList_syncPeriod now P inc t q hq'
  rw [writeRowsFor_def, syncRows_eq_nil_iff, List.eq_nil_iff_forall_not_mem]
  intro r hr
  obtain ⟨hrmem, hrpath, hrge, hrle⟩ := mem_selectIncoming.mp hr
  cases hL1 : lastFinal (syncPeriod now P inc t) q with
  | none =>
    rw [hL1] at hrge
    have hnil : tsList (syncPeriod now P inc t) q = [] := lastFinal_eq_none_iff.mp hL1
    have ht0 : tsList t q = [] := by
      rw [List.eq_nil_iff_forall_not_mem]
      intro y hy
      have hy1 : y ∈ tsList (syncPeriod now P inc t) q := (hts y).mpr (Or.inl hy)
      rw [hnil] at hy1
      exact List.not_mem_nil y hy1
    have hW : writeRowsFor now P inc t q = [] := by
      rw [List.eq_nil_iff_forall_not_mem]
      intro w hw
      have hw1 : w.timestamp ∈ tsList (syncPeriod now P inc t) q :=
        (hts _).mpr (Or.inr (List.mem_map_of_mem _ hw))
      rw [hnil] at hw1
      exact List.not_mem_nil _ hw1
    have hL0 : lastFinal t q = none := lastFinal_eq_none_iff.mpr ht0
    have hsel : selectIncoming inc q ((lastFinal t q).getD (-(P : ℚ)) + P)
        ((⌊(now - TAIL) / (P : ℚ)⌋ : ℚ) * P) = [] := by
      rw [← syncRows_eq_nil_iff (P := P), ← writeRowsFor_def]
      exact hW
    have hmem1 : r ∈ selectIncoming inc q ((lastFinal t q).getD (-(P : ℚ)) + P)
        ((⌊(now - TAIL) / (P : ℚ)⌋ : ℚ) * P) := by
      refine mem_selectIncoming.mpr ⟨hsub r hrmem, hrpath, ?_, hrle⟩
      rw [hL0]
      exact hrge
    rw [hsel] at hmem1
    exact List.not_mem_nil r hmem1
  | some M =>
    rw [hL1, Option.getD_some] at hrge
    have hMmem := lastFinal_mem hL1
    have hMge := lastFinal_ge hL1
    cases hL0 : lastFinal t q with
    | none =>
      have ht0 : tsList t q = [] := lastFinal_eq_none_iff.mp hL0
      have hMW : M ∈ (writeRowsFor now P inc t q).map AggRow.timestamp := by
        rcases (hts M).mp hMmem with h | h
        · rw [ht0] at h
          exact absurd h (List.not_mem_nil M)
        · exact h
      rw [writeRowsFor_def, syncRows_map_timestamp] at hMW
      obtain ⟨s, hsmem, hsbkt⟩ := mem_groupBuckets.mp hMW
      have hs0 : 0 ≤ s.timestamp := by
        have hb := (mem_selectIncoming.mp hsmem).2.2.1
        rw [hL0, Option.getD_none] at hb
        linarith
      have hM0 : 0 ≤ M := hsbkt ▸ bucketTs_nonneg P hP hs0
      have hr1 : r ∈ selectIncoming inc q ((lastFinal t q).getD (-(P : ℚ)) + P)
          ((⌊(now - TAIL) / (P : ℚ)⌋ : ℚ) * P) := by
        refine mem_selectIncoming.mpr ⟨hsub r hrmem, hrpath, ?_, hrle⟩
        rw [hL0, Option.getD_none]
        linarith
      have hbr : bucketTs P r.timestamp ∈
          (writeRowsFor now P inc t q).map AggRow.timestamp := by
        rw [writeRowsFor_def, syncRows_map_timestamp]
        exact mem_groupBuckets.mpr ⟨r, hr1, rfl⟩
      have hbrM : bucketTs P r.timestamp ≤ M := hMge _ ((hts _).mpr (Or.inr hbr))
      have hlt := lt_bucketTs_add P hP r.timestamp
      linarith
    | some l₀ =>
      have hl0mem : l₀ ∈ tsList t q := lastFinal_mem hL0
      have hl0M : l₀ ≤ M := hMge _ ((hts _).mpr (Or.inl hl0mem))
      have hr1 : r ∈ selectIncoming inc q ((lastFinal t q).getD (-(P : ℚ)) + P)
          ((⌊(now - TAIL) / (P : ℚ)⌋ : ℚ) * P) := by
        refine mem_selectIncoming.mpr ⟨hsub r hrmem, hrpath, ?_, hrle⟩
        rw [hL0, Option.getD_some]
        linarith
      have hbr : bucketTs P r.timestamp ∈
          (writeRowsFor now P inc t q).map AggRow.timestamp := by
        rw [writeRowsFor_def, syncRows_map_timestamp]
        exact mem_groupBuckets.mpr ⟨r, hr1, rfl⟩
      have hbrM : bucketTs P r.timestamp ≤ M := hMge _ ((hts _).mpr (Or.inr hbr))
      have hlt := lt_bucketTs_add P hP r.timestamp
      linarith

/-- A fold of per-path passes that all write nothing is the identity. -/
theorem fold_pathPass_id (now : ℚ) (P : ℕ) (inc : List Sample) (t : List AggRow) :
    ∀ qs : List String, (∀ q ∈ qs, writeRowsFor now P inc t q = []) →
      ∀ tbl : List AggRow, qs.foldl (pathPass now P inc t) tbl = tbl := by
  intro qs
  induction qs with
  | nil => intro _ tbl; rfl
  | cons q qs ih =>
    intro h tbl
    rw [List.foldl_cons]
    have hstep : pathPass now P inc t tbl q = tbl := by
      rw [pathPass, h q (List.mem_cons_self q qs)]
      rfl
    rw [hstep]
    exact ih (fun q' hq' => h q' (List.mem_cons_of_mem q hq')) tbl

/-- Re-running one period's pass with the same clock, over any sub-list of
the incoming rows, is a no-op. -/
theorem syncPeriod_idem (P : ℕ) (hP : 0 < P) (now : ℚ) (inc inc' : List Sample)
    (t : List AggRow) (hsub : ∀ r ∈ inc', r ∈ inc) :
    syncPeriod now P inc' (syncPeriod now P inc t) = syncPeriod now P inc t := by
  show (distinctPaths inc').foldl
      (pathPass now P inc' (syncPeriod now P inc t)) (syncPeriod now P inc t) =
    syncPeriod now P inc t
  exact fold_pathPass_id now P inc' (syncPeriod now P inc t) (distinctPaths inc')
    (fun q hq => writeRowsFor_second_nil P hP now inc inc' t hsub q hq)
    (syncPeriod now P inc t)

/-- C3: running `_sync` a second time with the same `now` and no
intervening insert changes nothing — every rollup table and the incoming
table are identical after the second sync to their state after the first
sync. -/
theorem c3_sync_idempotent (now : ℚ) (st : Store) :
    syncStore now (syncStore now st) = syncStore now st := by
  have hnd : (PERIODS.map Prod.fst).Nodup := by decide
  have hPpos : ∀ nP ∈ PERIODS, 0 < nP.2 := by decide
  have hsub : ∀ r ∈ (syncStore now st).incoming, r ∈ st.incoming :=
    fun r hr => (List.mem_filter.mp hr).1
  refine Store.ext ?_ ?_
  · show ((syncStore now st).incoming).filter
        (fun r => ¬(r.timestamp < deleteEndFor now)) = (syncStore now st).incoming
    show ((st.incoming.filter (fun r => ¬(r.timestamp < deleteEndFor now))).filter
        (fun r => ¬(r.timestamp < deleteEndFor now))) = _
    rw [List.filter_filter]
    exact List.filter_congr (fun r _ => Bool.and_self _)
  · funext name
    show (PERIODS.foldl (periodStep now (syncStore now st).incoming)
        (syncStore now st).rollups) name = (syncStore now st).rollups name
    by_cases hmemN : name ∈ PERIODS.map Prod.fst
    · obtain ⟨⟨n, P⟩, hmem, heq⟩ := List.mem_map.mp hmemN
      have heq' : name = n := heq.symm
      subst heq'
      rw [periods_foldl_apply now (syncStore now st).incoming PERIODS
        (syncStore now st).rollups name P hnd hmem]
      have hru : (syncStore now st).rollups name =
          syncPeriod now P st.incoming (st.rollups name) :=
        periods_foldl_apply now st.incoming PERIODS st.rollups name P hnd hmem
      rw [hru]
      exact syncPeriod_idem P (hPpos (name, P) hmem) now st.incoming
        (syncStore now st).incoming (st.rollups name) hsub
    · exact periods_foldl_apply_notmem now (syncStore now st).incoming PERIODS
        (syncStore now st).rollups name hmemN
